import Mathlib

/-!
A verification development for `project_to_md.py`, a utility that serializes a
project directory into one Markdown document.

The shallow embedding below models:
  * filesystem paths as lists of components (`List String`);
  * file bytes as `List Nat` (values 0..255) plus an optional OS error that any
    `open` of the file raises;
  * directories as association lists from entry name to entry;
  * the external `pathspec` matcher as an abstract predicate on relative paths
    (the `compile` parameter models `PathSpec.from_lines`);
  * Python dicts (insertion-ordered) as association lists in insertion order.

Python's `sorted` on strings compares by Unicode code points; `strLe` below is
exactly that ordering.
-/

/-- A compiled ignore matcher (models a `pathspec.PathSpec` object's
`match_file`): a predicate on a relative path given as components. -/
abbrev Matcher := List String → Bool

/-- Lexicographic code-point comparison of strings, as Python's `<=` on `str`.
Defined on the underlying character lists so that it evaluates by `decide`. -/
def charListLe : List Char → List Char → Bool
  | [], _ => true
  | _ :: _, [] => false
  | a :: as, b :: bs =>
    if a.toNat < b.toNat then true
    else if b.toNat < a.toNat then false
    else charListLe as bs

/-- `a <= b` in Python's string ordering (code-point lexicographic). -/
def strLe (a b : String) : Bool := charListLe a.data b.data

/-- Strict version of `strLe`. -/
def strLt (a b : String) : Bool := strLe a b && !(a == b)

/-- Model of `os.path.relpath(p, start)` on normalized absolute paths given as
component lists: drop the common prefix, then one `".."` per remaining
component of `start`, then the rest of `p`.  (`relpath p p = []` stands for
`"."`.) -/
def relpath : List String → List String → List String
  | p, [] => p
  | [], b :: s' => List.replicate (b :: s').length ".."
  | a :: p', b :: s' =>
    if a = b then relpath p' s'
    else List.replicate (b :: s').length ".." ++ (a :: p')

/-- Model of `os.path.join`/display form of a component path (POSIX). -/
def joinPath (p : List String) : String := "/".intercalate p

/-- `is_ignored(filepath, spec)` from the source: `False` when `spec is None`,
otherwise match the path relativized to the process working directory `cwd`
(`os.path.relpath(filepath, start=os.getcwd())`). -/
def is_ignored (filepath : List String) (cwd : List String) (spec : Option Matcher) : Bool :=
  match spec with
  | none => false
  | some m => m (relpath filepath cwd)

/-- One file's on-disk state: raw bytes, plus `osError = some e` when any
attempt to open/read the file raises an `OSError` with message `e`. -/
structure FileData where
  bytes : List Nat
  osError : Option String
deriving DecidableEq, Repr

/-- Strict UTF-8 decoding of a byte sequence to code points, as Python's
`bytes.decode("utf-8")`: rejects invalid starts, overlong encodings,
surrogates, out-of-range code points and truncated sequences. -/
def utf8Decode : List Nat → Option (List Nat)
  | [] => some []
  | b :: rest =>
    if b < 0x80 then (utf8Decode rest).map (b :: ·)
    else if b < 0xC2 then none
    else if b < 0xE0 then
      match rest with
      | c1 :: rest' =>
        if 0x80 ≤ c1 && c1 < 0xC0 then
          (utf8Decode rest').map (((b - 0xC0) * 0x40 + (c1 - 0x80)) :: ·)
        else none
      | [] => none
    else if b < 0xF0 then
      match rest with
      | c1 :: c2 :: rest' =>
        let lo1 := if b = 0xE0 then 0xA0 else 0x80
        let hi1 := if b = 0xED then 0xA0 else 0xC0
        if (lo1 ≤ c1 && c1 < hi1) && (0x80 ≤ c2 && c2 < 0xC0) then
          (utf8Decode rest').map
            (((b - 0xE0) * 0x1000 + (c1 - 0x80) * 0x40 + (c2 - 0x80)) :: ·)
        else none
      | _ => none
    else if b < 0xF5 then
      match rest with
      | c1 :: c2 :: c3 :: rest' =>
        let lo1 := if b = 0xF0 then 0x90 else 0x80
        let hi1 := if b = 0xF4 then 0x90 else 0xC0
        if (lo1 ≤ c1 && c1 < hi1) && (0x80 ≤ c2 && c2 < 0xC0) && (0x80 ≤ c3 && c3 < 0xC0) then
          (utf8Decode rest').map
            (((b - 0xF0) * 0x40000 + (c1 - 0x80) * 0x1000 + (c2 - 0x80) * 0x40 + (c3 - 0x80)) :: ·)
        else none
      | _ => none
    else none

/-- Universal-newline translation performed by Python's text-mode read:
`"\r\n"` and `"\r"` both become `"\n"`. -/
def universalNewlines : List Nat → List Nat
  | [] => []
  | 13 :: 10 :: rest => 10 :: universalNewlines rest
  | 13 :: rest => 10 :: universalNewlines rest
  | c :: rest => c :: universalNewlines rest

/-- The message of a `UnicodeDecodeError` (modelled as a fixed string; the
exact runtime message additionally names the offending byte and offset). -/
def unicodeDecodeErrorMsg : String := "'utf-8' codec can't decode byte"

/-- Model of `open(path, "r", encoding="utf-8").read()` on one file: an OS
error or a decode error raises; otherwise the decoded, newline-translated
text is returned. -/
def readTextData (f : FileData) : Except String String :=
  match f.osError with
  | some e => Except.error e
  | none =>
    match utf8Decode f.bytes with
    | none => Except.error unicodeDecodeErrorMsg
    | some cps => Except.ok (String.mk ((universalNewlines cps).map Char.ofNat))

/-- `is_binary_file(filepath, check_bytes=1024)` from the source: read up to
1024 bytes (any raised exception ⇒ `True`); a NUL byte in the chunk ⇒ `True`;
a UTF-8 decode failure of the chunk ⇒ `True`; otherwise `False`. -/
def is_binary_file (f : FileData) : Bool :=
  match f.osError with
  | some _ => true
  | none =>
    let chunk := f.bytes.take 1024
    if chunk.contains 0 then true
    else if (utf8Decode chunk).isNone then true
    else false

/-- A filesystem entry: a regular file with its data, or a directory with a
finite association list of named children (in OS listing order; real
directories never hold two entries with the same name). -/
inductive FSEntry where
  | file (data : FileData)
  | dir (entries : List (String × FSEntry))

/-- `os.path.isdir` on a modelled entry. -/
def FSEntry.isDir : FSEntry → Bool
  | .file _ => false
  | .dir _ => true

/-- Stable insertion of a named entry into a name-sorted list. -/
def insertEntry (x : String × FSEntry) : List (String × FSEntry) → List (String × FSEntry)
  | [] => [x]
  | y :: ys => if strLe x.1 y.1 then x :: y :: ys else y :: insertEntry x ys

/-- Sorting a directory listing by name, modelling `sorted(os.listdir(root))`
(entry names in a directory are distinct, so sorting the pairs by name and
iterating equals iterating the sorted name list and looking each name up). -/
def sortEntries : List (String × FSEntry) → List (String × FSEntry)
  | [] => []
  | x :: xs => insertEntry x (sortEntries xs)

/-- The value stored in the Python tree dict: a nested dict for a directory,
or the string `"FILE"` / `"BINARY"` for a classified file. -/
inductive TreeNode where
  | dict (entries : List (String × TreeNode))
  | str (s : String)

/-- `skip_dirs = {".git", "__pycache__"}` from the source. -/
def skip_dirs : List String := [".git", "__pycache__"]

theorem sizeOf_insertEntry (x : String × FSEntry) (l : List (String × FSEntry)) :
    sizeOf (insertEntry x l) = sizeOf (x :: l) := by
  induction l with
  | nil => rfl
  | cons y ys ih =>
    simp only [insertEntry]
    by_cases h : strLe x.1 y.1
    · simp [h]
    · simp only [h, if_neg, Bool.false_eq_true, if_false]
      simp only [List.cons.sizeOf_spec] at ih ⊢
      omega

theorem sizeOf_sortEntries (l : List (String × FSEntry)) :
    sizeOf (sortEntries l) = sizeOf l := by
  induction l with
  | nil => rfl
  | cons x xs ih =>
    simp only [sortEntries, sizeOf_insertEntry, List.cons.sizeOf_spec]
    omega

/-- The loop body of `build_file_tree`: iterate over the sorted listing of
directory `path`; skip `.git`/`__pycache__` directories; skip ignored paths;
recurse into directories (listing and sorting them); classify files. -/
def buildList (cwd : List String) (m : Option Matcher) (path : List String) :
    List (String × FSEntry) → List (String × TreeNode)
  | [] => []
  | (n, e) :: rest =>
    if skip_dirs.contains n && e.isDir then buildList cwd m path rest
    else if is_ignored (path ++ [n]) cwd m then buildList cwd m path rest
    else
      match e with
      | .dir sub =>
        (n, TreeNode.dict (buildList cwd m (path ++ [n]) (sortEntries sub))) ::
          buildList cwd m path rest
      | .file fd =>
        (n, TreeNode.str (if is_binary_file fd then "BINARY" else "FILE")) ::
          buildList cwd m path rest
termination_by l => sizeOf l
decreasing_by
  all_goals
    simp only [List.cons.sizeOf_spec, sizeOf_sortEntries, Prod.mk.sizeOf_spec,
      FSEntry.dir.sizeOf_spec]
  all_goals omega

/-- `build_file_tree(root, spec)` from the source, on a modelled directory
listing `entries` for the directory at absolute path `root`. -/
def build_file_tree (cwd : List String) (m : Option Matcher) (root : List String)
    (entries : List (String × FSEntry)) : TreeNode :=
  TreeNode.dict (buildList cwd m root (sortEntries entries))

mutual

/-- `render_tree_markdown(tree, prefix)` from the source: for each entry of
the dict (in insertion order), a `- **name/**` line followed by the joined
rendering of the subtree (one list element), or a `- name` line for a file;
the collected elements are joined with `"\n"`. -/
def render_tree_markdown : TreeNode → String → String
  | TreeNode.dict entries, pre => "\n".intercalate (renderItems pre entries)
  | TreeNode.str _, _ => ""

/-- The `lines` list accumulated by `render_tree_markdown`'s loop. -/
def renderItems (pre : String) : List (String × TreeNode) → List String
  | [] => []
  | (n, TreeNode.dict sub) :: rest =>
    (pre ++ "- **" ++ n ++ "/**") ::
      render_tree_markdown (TreeNode.dict sub) (pre ++ "  ") :: renderItems pre rest
  | (n, TreeNode.str _) :: rest => (pre ++ "- " ++ n) :: renderItems pre rest

end

/-- The suffix of a character list starting at its last `'.'`, if any. -/
def afterLastDot : List Char → Option (List Char)
  | [] => none
  | c :: rest =>
    match afterLastDot rest with
    | some s => some s
    | none => if c = '.' then some (c :: rest) else none

/-- `os.path.splitext(name)[1]` on a base name: the extension starting at the
last dot, provided some character strictly before that dot is not a dot
(so `".bashrc"` has no extension). -/
def splitextExt (name : String) : String :=
  match afterLastDot name.data with
  | none => ""
  | some ext =>
    if (name.data.take (name.data.length - ext.length)).any (fun c => c ≠ '.') then
      String.mk ext
    else ""

/-- The fixed extension → fence-language table from `gather_file_contents`. -/
def fenceLangTable : List (String × String) :=
  [(".py", "python"), (".js", "javascript"), (".ts", "typescript"),
   (".json", "json"), (".html", "html"), (".css", "css")]

mutual

/-- `gather_file_contents(tree, parent_path)` from the source, with the
filesystem text-read `open(full_path, "r", encoding="utf-8").read()` modelled
by the oracle `rt` from absolute component paths to text or error. -/
def gather_file_contents (rt : List String → Except String String) :
    TreeNode → List String → String
  | TreeNode.dict entries, parent => "\n".intercalate (gatherItems rt parent entries)
  | TreeNode.str _, _ => ""

/-- The `contents` list accumulated by `gather_file_contents`'s loop: one
element per subdirectory (its joined output), four elements per `"FILE"`
(heading, opening fence with language tag, text or error placeholder, closing
fence), two per `"BINARY"` (heading, note). -/
def gatherItems (rt : List String → Except String String) (parent : List String) :
    List (String × TreeNode) → List String
  | [] => []
  | (n, TreeNode.dict sub) :: rest =>
    gather_file_contents rt (TreeNode.dict sub) (parent ++ [n]) ::
      gatherItems rt parent rest
  | (n, TreeNode.str v) :: rest =>
    (if v = "FILE" then
      let file_text :=
        match rt (parent ++ [n]) with
        | Except.ok s => s
        | Except.error e => "Could not read file: " ++ e
      let fence_lang := (fenceLangTable.lookup (splitextExt n).toLower).getD ""
      ["## " ++ joinPath (parent ++ [n]) ++ "\n", "```" ++ fence_lang, file_text, "```\n"]
    else if v = "BINARY" then
      ["## " ++ joinPath (parent ++ [n]) ++ "\n", "_(binary file, not included)_\n"]
    else []) ++ gatherItems rt parent rest

end

/-- The state of the ignore file at `<cwd>/.gitignore`: absent, present but
raising on read, or readable with the given `splitlines()` content. -/
inductive IgnoreFile where
  | absent
  | unreadable (msg : String)
  | readable (lines : List String)

/-- `load_gitignore_patterns(gitignore_path)` from the source: `None` when the
file does not exist; otherwise read it (an unhandled exception propagates,
modelled as `Except.error`) and compile a matcher. `compile` models the
external `PathSpec.from_lines("gitwildmatch", ...)`. -/
def load_gitignore_patterns (compile : List String → Matcher) :
    IgnoreFile → Except String (Option Matcher)
  | IgnoreFile.absent => Except.ok none
  | IgnoreFile.unreadable msg => Except.error msg
  | IgnoreFile.readable ls => Except.ok (some (compile ls))

/-- Find a named child in a directory listing (first match). -/
def lookupEntry : List (String × FSEntry) → String → Option FSEntry
  | [], _ => none
  | (m, e) :: rest, n => if m = n then some e else lookupEntry rest n

/-- Resolve a nonempty relative component path inside a directory listing. -/
def lookupPath (entries : List (String × FSEntry)) : List String → Option FSEntry
  | [] => none
  | [n] => lookupEntry entries n
  | n :: rest =>
    match lookupEntry entries n with
    | some (FSEntry.dir sub) => lookupPath sub rest
    | _ => none

/-- `some rest` when the second path is the first extended by `rest`. -/
def stripPre : List String → List String → Option (List String)
  | [], q => some q
  | _ :: _, [] => none
  | a :: p', b :: q' => if a = b then stripPre p' q' else none

/-- The full modelled state a run of the program sees: the working directory's
absolute path, its directory listing, and the state of `<cwd>/.gitignore`. -/
structure SystemState where
  cwd : List String
  rootEntries : List (String × FSEntry)
  ignore : IgnoreFile

/-- Text-mode `open(path).read()` against the modelled filesystem, for
absolute paths below `cwd` (the only paths the program opens). -/
def osOpenText (st : SystemState) (path : List String) : Except String String :=
  match stripPre st.cwd path with
  | none => Except.error "No such file or directory"
  | some rel =>
    match lookupPath st.rootEntries rel with
    | some (FSEntry.file fd) => readTextData fd
    | some (FSEntry.dir _) => Except.error "Is a directory"
    | none => Except.error "No such file or directory"

/-- `main()` from the source, up to the delivered document: load the ignore
file from `cwd` (an unhandled exception aborts the run), build the tree of
`cwd`, render the structure section, gather the contents section, and wrap
everything in `<project>` tags.  Token counting and the clipboard sink are
external collaborators and take the document as-is. -/
def mainDocument (compile : List String → Matcher) (st : SystemState) :
    Except String String :=
  match load_gitignore_patterns compile st.ignore with
  | Except.error e => Except.error e
  | Except.ok m =>
    let project_tree := build_file_tree st.cwd m st.cwd st.rootEntries
    let tree_section := "# Project Structure\n\n" ++ render_tree_markdown project_tree ""
    let contents_section :=
      "\n\n# File Contents\n\n" ++ gather_file_contents (osOpenText st) project_tree st.cwd
    Except.ok ("<project>\n" ++ (tree_section ++ contents_section) ++ "\n</project>\n")

theorem intercalate_go_append (s : String) (as : List String) :
    ∀ acc₁ acc₂ : String,
      String.intercalate.go (acc₁ ++ acc₂) s as = acc₁ ++ String.intercalate.go acc₂ s as := by
  induction as with
  | nil => intro acc₁ acc₂; rfl
  | cons a as ih =>
    intro acc₁ acc₂
    show String.intercalate.go (acc₁ ++ acc₂ ++ s ++ a) s as =
      acc₁ ++ String.intercalate.go (acc₂ ++ s ++ a) s as
    rw [String.append_assoc acc₁ acc₂ s, String.append_assoc acc₁ (acc₂ ++ s) a]
    exact ih acc₁ (acc₂ ++ s ++ a)

theorem intercalate_nil (s : String) : String.intercalate s [] = "" := rfl

theorem intercalate_single (s a : String) : String.intercalate s [a] = a := rfl

theorem intercalate_cons (s a : String) (l : List String) (h : l ≠ []) :
    String.intercalate s (a :: l) = a ++ s ++ String.intercalate s l := by
  match l, h with
  | b :: bs, _ =>
    show String.intercalate.go (a ++ s ++ b) s bs = a ++ s ++ String.intercalate s (b :: bs)
    rw [show a ++ s ++ b = (a ++ s) ++ b from rfl, intercalate_go_append s bs (a ++ s) b]
    rfl

theorem intercalate_append (s : String) (u v : List String) (hu : u ≠ []) (hv : v ≠ []) :
    String.intercalate s (u ++ v) = String.intercalate s u ++ s ++ String.intercalate s v := by
  induction u with
  | nil => exact absurd rfl hu
  | cons a u' ih =>
    rcases u' with _ | ⟨b, u''⟩
    · rw [List.singleton_append, intercalate_cons s a v hv, intercalate_single]
    · rw [List.cons_append, intercalate_cons s a _ (by simp),
        intercalate_cons s a _ (by simp), ih (by simp)]
      simp [String.append_assoc]

theorem intercalate_congr_tail (s : String) (x ys zs : List String)
    (hiff : ys = [] ↔ zs = []) (h : String.intercalate s ys = String.intercalate s zs) :
    String.intercalate s (x ++ ys) = String.intercalate s (x ++ zs) := by
  induction x with
  | nil => exact h
  | cons a x' ih =>
    by_cases hx : x' ++ ys = []
    · have hp : x' = [] ∧ ys = [] := List.append_eq_nil.mp hx
      have hzs : zs = [] := hiff.mp hp.2
      rw [hp.1, hp.2, hzs]
    · have hzx : x' ++ zs ≠ [] := by
        intro hz
        have hp := List.append_eq_nil.mp hz
        exact hx (by simp [hp.1, hiff.mpr hp.2])
      rw [List.cons_append, List.cons_append, intercalate_cons s a _ hx,
        intercalate_cons s a _ hzx, ih]

theorem intercalate_splice (s : String) (bs : List String) (pre post : List String)
    (h : bs ≠ []) :
    String.intercalate s (pre ++ String.intercalate s bs :: post) =
      String.intercalate s (pre ++ (bs ++ post)) := by
  induction pre with
  | nil =>
    rcases post with _ | ⟨p, post'⟩
    · rw [List.nil_append, List.nil_append, List.append_nil, intercalate_single]
    · rw [List.nil_append, List.nil_append,
        intercalate_cons s _ _ (by simp), intercalate_append s bs (p :: post') h (by simp)]
  | cons a pre' ih =>
    have h₂ : pre' ++ (bs ++ post) ≠ [] := by
      intro hc
      have hp := List.append_eq_nil.mp hc
      exact h (List.append_eq_nil.mp hp.2).1
    rw [List.cons_append, List.cons_append,
      intercalate_cons s a _ (by simp), intercalate_cons s a _ h₂, ih]

/-- C3: for every file whose first 1024 bytes contain a NUL byte,
`is_binary_file` classifies it as binary (returns `true`), regardless of the
rest of the file's content (and also when the read itself fails). -/
theorem claim_c3_nul_prefix_is_binary (f : FileData)
    (h : (f.bytes.take 1024).contains 0 = true) : is_binary_file f = true := by
  rcases hos : f.osError with _ | e
  · simp [is_binary_file, hos]
    left
    simpa using h
  · simp [is_binary_file, hos]

theorem claim_c3_witness :
    ((FileData.mk [0, 65] none).bytes.take 1024).contains 0 = true ∧
      is_binary_file (FileData.mk [0, 65] none) = true :=
  ⟨by decide, claim_c3_nul_prefix_is_binary (FileData.mk [0, 65] none) (by decide)⟩

mutual

/-- No directory node of the tree is named `.git` or `__pycache__`. -/
def nodeNoSkipDirs : TreeNode → Bool
  | TreeNode.str _ => true
  | TreeNode.dict l => itemsNoSkipDirs l

/-- Entry-list form of `nodeNoSkipDirs`. -/
def itemsNoSkipDirs : List (String × TreeNode) → Bool
  | [] => true
  | (n, TreeNode.dict sub) :: rest =>
    (!skip_dirs.contains n && itemsNoSkipDirs sub) && itemsNoSkipDirs rest
  | (_, TreeNode.str _) :: rest => itemsNoSkipDirs rest

end

/-- C4 (amended): when the ignore file does not exist the program behaves as
if no ignore rules were given (`None` is returned and nothing is matched);
but when the ignore file exists and reading it raises, the exception
propagates out of `load_gitignore_patterns` (the run aborts). -/
theorem claim_c4_amended (compile : List String → Matcher) :
    load_gitignore_patterns compile IgnoreFile.absent = Except.ok none ∧
      (∀ p cwd, is_ignored p cwd none = false) ∧
      (∀ e, load_gitignore_patterns compile (IgnoreFile.unreadable e) = Except.error e) :=
  ⟨rfl, fun _ _ => rfl, fun _ => rfl⟩

/-- C4 counterexample: an unreadable (but existing) ignore file does not make
the run behave as if the file were absent — the error propagates, aborting
`main` — refuting the claim for failure causes other than non-existence. -/
theorem claim_c4_counterexample :
    load_gitignore_patterns (fun _ _ => false) (IgnoreFile.unreadable "Permission denied") =
        Except.error "Permission denied" ∧
      load_gitignore_patterns (fun _ _ => false) IgnoreFile.absent = Except.ok none ∧
      mainDocument (fun _ _ => false)
          (SystemState.mk [] [] (IgnoreFile.unreadable "Permission denied")) =
        Except.error "Permission denied" :=
  ⟨rfl, rfl, rfl⟩

theorem relpath_append (start q : List String) : relpath (start ++ q) start = q := by
  induction start with
  | nil => cases q <;> simp [relpath]
  | cons a s' ih =>
    show relpath (a :: (s' ++ q)) (a :: s') = q
    simp [relpath, ih]

/-- C10: `is_ignored` matches the path relativized to the process working
directory, not to the traversal root: the matcher is consulted on
`relpath(filepath, cwd)`; when the root equals `cwd` this is exactly the
root-relative path, and the third conjunct shows a root (`/r`) different from
the working directory (`/c`) where the matcher is consulted on a
`..`-prefixed working-directory-relative path instead of the root-relative
`["x"]`. -/
theorem claim_c10_ignore_relative_to_cwd (m : Matcher) (cwd q : List String) :
    is_ignored (cwd ++ q) cwd (some m) = m (relpath (cwd ++ q) cwd) ∧
      is_ignored (cwd ++ q) cwd (some m) = m q ∧
      is_ignored (["r"] ++ ["x"]) ["c"] (some m) = m ["..", "r", "x"] := by
  refine ⟨rfl, ?_, rfl⟩
  show m (relpath (cwd ++ q) cwd) = m q
  rw [relpath_append]

theorem itemsNoSkipDirs_buildList (cwd : List String) (m : Option Matcher) :
    ∀ path l, itemsNoSkipDirs (buildList cwd m path l) = true := by
  intro path l
  induction path, l using buildList.induct cwd m with
  | case1 path => simp [buildList.eq_def, itemsNoSkipDirs]
  | case2 path n e rest h ih =>
    have h' : n ∈ skip_dirs ∧ e.isDir = true := by simpa using h
    rw [buildList.eq_def]
    simp [h', ih]
  | case3 path n e rest h h2 ih =>
    rw [buildList.eq_def]
    simp [h, h2, ih]
  | case4 path n rest h2 sub h ih₁ ih₂ =>
    have h' : n ∉ skip_dirs := by simpa [FSEntry.isDir] using h
    rw [buildList.eq_def]
    simp [FSEntry.isDir, h', h2, itemsNoSkipDirs, ih₁, ih₂]
  | case5 path n rest h2 fd h ih =>
    rw [buildList.eq_def]
    simp [FSEntry.isDir, h2, itemsNoSkipDirs, ih]

/-- C2 (amended): no directory node named `.git` or `__pycache__` ever
appears in the built tree, for every filesystem state and every matcher —
including matchers compiled from ignore files that would re-include them.  (A
regular *file* named `.git` is not excluded by the code, which is what forces
the amendment; see the counterexample.) -/
theorem claim_c2_amended (cwd : List String) (m : Option Matcher) (root : List String)
    (fs : List (String × FSEntry)) :
    nodeNoSkipDirs (build_file_tree cwd m root fs) = true := by
  rw [build_file_tree]
  show itemsNoSkipDirs _ = true
  exact itemsNoSkipDirs_buildList cwd m root (sortEntries fs)

theorem claim_c2_counterexample :
    build_file_tree [] none [] [(".git", FSEntry.file (FileData.mk [] none))] =
      TreeNode.dict [(".git", TreeNode.str "FILE")] := by
  have hb : is_binary_file (FileData.mk [] none) = false := rfl
  rw [build_file_tree]
  rw [show sortEntries [(".git", FSEntry.file (FileData.mk [] none))] =
      [(".git", FSEntry.file (FileData.mk [] none))] from rfl]
  rw [buildList.eq_def]
  simp only [FSEntry.isDir, is_ignored, hb, Bool.and_false, Bool.false_eq_true, if_false]
  rw [buildList.eq_def]

/-- The body of a text-file block: the file's text when the read succeeds,
otherwise (spec 4.5) "the error message in place of the file content". -/
def bodyOrError (rt : List String → Except String String) (full : List String) : String :=
  match rt full with
  | Except.ok s => s
  | Except.error e => "Could not read file: " ++ e

/-- Spec 4.5, `TEXT_FILE` case: a heading line with the file's full path, an
opening fence carrying the language tag from the fixed extension table (empty
tag for unlisted extensions), the file's text content verbatim (or the error
placeholder), and a closing fence. -/
def specFileSegs (rt : List String → Except String String) (parent : List String)
    (n : String) : List String :=
  ["## " ++ joinPath (parent ++ [n]) ++ "\n",
   "```" ++ (fenceLangTable.lookup (splitextExt n).toLower).getD "",
   bodyOrError rt (parent ++ [n]),
   "```\n"]

/-- Spec 4.5, `BINARY_FILE` case: a heading line and an italic note. -/
def specBinarySegs (parent : List String) (n : String) : List String :=
  ["## " ++ joinPath (parent ++ [n]) ++ "\n", "_(binary file, not included)_\n"]

/-- The block a leaf with mark `v` contributes. -/
def leafSegs (rt : List String → Except String String) (parent : List String)
    (n : String) (v : String) : List String :=
  if v = "FILE" then specFileSegs rt parent n
  else if v = "BINARY" then specBinarySegs parent n
  else []

/-- The flattened sequence of output segments of the content gatherer, one
block per leaf in depth-first order; a directory whose own output is empty
contributes one empty segment (the blank line the source emits for it). -/
def contentSegs (rt : List String → Except String String) (parent : List String) :
    List (String × TreeNode) → List String
  | [] => []
  | (n, TreeNode.dict sub) :: rest =>
    (let bs := contentSegs rt (parent ++ [n]) sub
     if bs = [] then [""] else bs) ++ contentSegs rt parent rest
  | (n, TreeNode.str v) :: rest => leafSegs rt parent n v ++ contentSegs rt parent rest
termination_by l => sizeOf l

theorem gatherItems_leaf (rt : List String → Except String String) (parent : List String)
    (n v : String) (rest : List (String × TreeNode)) :
    gatherItems rt parent ((n, TreeNode.str v) :: rest) =
      leafSegs rt parent n v ++ gatherItems rt parent rest := by
  rw [gatherItems]
  rcases hv : v == "FILE" with _ | _
  · rcases hv2 : v == "BINARY" with _ | _
    · simp [leafSegs, (by simpa using hv : ¬ v = "FILE"), (by simpa using hv2 : ¬ v = "BINARY")]
    · simp [leafSegs, (by simpa using hv : ¬ v = "FILE"), (by simpa using hv2 : v = "BINARY"),
        specBinarySegs]
  · simp [leafSegs, (by simpa using hv : v = "FILE"), specFileSegs, bodyOrError]

theorem gatherItems_eq_nil_iff (rt : List String → Except String String) :
    ∀ parent l, (gatherItems rt parent l = [] ↔ contentSegs rt parent l = []) := by
  intro parent l
  induction l with
  | nil => rw [gatherItems, contentSegs]
  | cons x rest ih =>
    rcases x with ⟨n, v⟩
    rcases v with sub | v
    · rw [gatherItems, contentSegs]
      constructor
      · intro h; cases h
      · intro h
        rcases hbs : contentSegs rt (parent ++ [n]) sub with _ | _ <;>
          simp [hbs] at h
    · rw [gatherItems_leaf, contentSegs]
      simp only [List.append_eq_nil]
      exact and_congr Iff.rfl ih

theorem gather_eq_contentSegs (rt : List String → Except String String) :
    ∀ parent l,
      "\n".intercalate (gatherItems rt parent l) = "\n".intercalate (contentSegs rt parent l) := by
  intro parent l
  induction parent, l using contentSegs.induct rt with
  | case1 parent => rw [gatherItems, contentSegs]
  | case2 parent n sub rest ih₁ ih₂ =>
    rw [gatherItems, contentSegs]
    have hg : gather_file_contents rt (TreeNode.dict sub) (parent ++ [n]) =
        "\n".intercalate (contentSegs rt (parent ++ [n]) sub) := by
      rw [gather_file_contents]; exact ih₁
    rcases hbs : contentSegs rt (parent ++ [n]) sub with _ | ⟨b, bs'⟩
    · have hgi : gatherItems rt (parent ++ [n]) sub = [] :=
        (gatherItems_eq_nil_iff rt _ _).mpr hbs
      rw [hg, hbs, intercalate_nil]
      show "\n".intercalate ([""] ++ gatherItems rt parent rest) =
        "\n".intercalate ([""] ++ contentSegs rt parent rest)
      exact intercalate_congr_tail "\n" [""] _ _ (gatherItems_eq_nil_iff rt parent rest) ih₂
    · rw [hg, hbs]
      show "\n".intercalate ("\n".intercalate (b :: bs') :: gatherItems rt parent rest) =
        "\n".intercalate ((b :: bs') ++ contentSegs rt parent rest)
      calc "\n".intercalate ("\n".intercalate (b :: bs') :: gatherItems rt parent rest)
          = "\n".intercalate ((b :: bs') ++ gatherItems rt parent rest) :=
            intercalate_splice "\n" (b :: bs') [] (gatherItems rt parent rest) (by simp)
        _ = "\n".intercalate ((b :: bs') ++ contentSegs rt parent rest) :=
            intercalate_congr_tail "\n" (b :: bs') _ _
              (gatherItems_eq_nil_iff rt parent rest) ih₂
  | case3 parent n v rest ih =>
    rw [gatherItems_leaf, contentSegs]
    exact intercalate_congr_tail "\n" (leafSegs rt parent n v) _ _
      (gatherItems_eq_nil_iff rt parent rest) ih

/-- C6: a text-file read failure during gathering never aborts the run: the
output is still the join of one block per node (every other node's block is
unaffected), and — second conjunct — a failing file's block carries the error
message in place of the file content. -/
theorem claim_c6_read_error_placeholder (rt : List String → Except String String)
    (entries : List (String × TreeNode)) (parent : List String) :
    gather_file_contents rt (TreeNode.dict entries) parent =
        "\n".intercalate (contentSegs rt parent entries) ∧
      (∀ (p : List String) (n e : String), rt (p ++ [n]) = Except.error e →
        specFileSegs rt p n =
          ["## " ++ joinPath (p ++ [n]) ++ "\n",
           "```" ++ (fenceLangTable.lookup (splitextExt n).toLower).getD "",
           "Could not read file: " ++ e,
           "```\n"]) := by
  constructor
  · rw [gather_file_contents]; exact gather_eq_contentSegs rt parent entries
  · intro p n e h
    simp [specFileSegs, bodyOrError, h]

theorem claim_c6_witness :
    (fun _ : List String => (Except.error "Permission denied" : Except String String))
          (([] : List String) ++ ["a.py"]) = Except.error "Permission denied" ∧
      specFileSegs (fun _ => Except.error "Permission denied") [] "a.py" =
        ["## " ++ joinPath (([] : List String) ++ ["a.py"]) ++ "\n",
         "```" ++ (fenceLangTable.lookup (splitextExt "a.py").toLower).getD "",
         "Could not read file: " ++ "Permission denied",
         "```\n"] :=
  ⟨rfl,
    (claim_c6_read_error_placeholder (fun _ => Except.error "Permission denied")
        [("a.py", TreeNode.str "FILE")] []).2 [] "a.py" "Permission denied" rfl⟩

/-- Spec 4.5 `TEXT_FILE` block when every read succeeds: heading, fence with
the table's language tag, the file's text verbatim, closing fence. -/
def specTextFileSegs (textOf : List String → String) (parent : List String)
    (n : String) : List String :=
  ["## " ++ joinPath (parent ++ [n]) ++ "\n",
   "```" ++ (fenceLangTable.lookup (splitextExt n).toLower).getD "",
   textOf (parent ++ [n]),
   "```\n"]

/-- Leaf blocks when every read succeeds. -/
def pureLeafSegs (textOf : List String → String) (parent : List String)
    (n : String) (v : String) : List String :=
  if v = "FILE" then specTextFileSegs textOf parent n
  else if v = "BINARY" then specBinarySegs parent n
  else []

/-- `contentSegs` specialized to a filesystem on which every text read
succeeds and returns `textOf path`. -/
def pureContentSegs (textOf : List String → String) (parent : List String) :
    List (String × TreeNode) → List String
  | [] => []
  | (n, TreeNode.dict sub) :: rest =>
    (let bs := pureContentSegs textOf (parent ++ [n]) sub
     if bs = [] then [""] else bs) ++ pureContentSegs textOf parent rest
  | (n, TreeNode.str v) :: rest =>
    pureLeafSegs textOf parent n v ++ pureContentSegs textOf parent rest
termination_by l => sizeOf l

theorem contentSegs_pure (textOf : List String → String) :
    ∀ parent l, contentSegs (fun q => Except.ok (textOf q)) parent l =
      pureContentSegs textOf parent l := by
  intro parent l
  induction parent, l using pureContentSegs.induct textOf with
  | case1 parent => rw [contentSegs, pureContentSegs]
  | case2 parent n sub rest ih₁ ih₂ =>
    rw [contentSegs, pureContentSegs, ih₁, ih₂]
  | case3 parent n v rest ih =>
    rw [contentSegs, pureContentSegs, ih]
    simp [leafSegs, pureLeafSegs, specFileSegs, specTextFileSegs, bodyOrError]

/-- C5: on a filesystem where every text read succeeds with `textOf path`,
the gatherer emits, for every `"FILE"` leaf, a heading line with the file's
full path followed by a fenced block whose opening fence carries the language
tag from the fixed extension table (empty for unlisted extensions) and whose
body is the file's text content verbatim — the output is the join of exactly
these blocks (plus binary notes and empty-directory segments). -/
theorem claim_c5_text_file_blocks (textOf : List String → String)
    (entries : List (String × TreeNode)) (parent : List String) :
    gather_file_contents (fun q => Except.ok (textOf q)) (TreeNode.dict entries) parent =
      "\n".intercalate (pureContentSegs textOf parent entries) := by
  rw [gather_file_contents, gather_eq_contentSegs, contentSegs_pure]

/-- The heading line the gatherer emits for the leaf at path `q`. -/
def mkHeading (q : List String) : String := "## " ++ joinPath q ++ "\n"

/-- The full paths of all non-directory (string-marked) leaves of a tree, in
depth-first traversal order. -/
def strLeafPaths (parent : List String) : List (String × TreeNode) → List (List String)
  | [] => []
  | (n, TreeNode.dict sub) :: rest =>
    strLeafPaths (parent ++ [n]) sub ++ strLeafPaths parent rest
  | (n, TreeNode.str _) :: rest => (parent ++ [n]) :: strLeafPaths parent rest
termination_by l => sizeOf l

/-- The heading lines the gatherer emits, in order: one per `"FILE"` or
`"BINARY"` leaf. -/
def contentHeadings (parent : List String) : List (String × TreeNode) → List String
  | [] => []
  | (n, TreeNode.dict sub) :: rest =>
    contentHeadings (parent ++ [n]) sub ++ contentHeadings parent rest
  | (n, TreeNode.str v) :: rest =>
    (if v = "FILE" ∨ v = "BINARY" then [mkHeading (parent ++ [n])] else []) ++
      contentHeadings parent rest
termination_by l => sizeOf l

/-- Every string-marked leaf of the tree carries `"FILE"` or `"BINARY"`. -/
def marksOK : List (String × TreeNode) → Bool
  | [] => true
  | (_, TreeNode.dict sub) :: rest => marksOK sub && marksOK rest
  | (_, TreeNode.str v) :: rest => (v == "FILE" || v == "BINARY") && marksOK rest
termination_by l => sizeOf l

/-- The child list of a built tree (the Python dict). -/
def TreeNode.entries : TreeNode → List (String × TreeNode)
  | TreeNode.dict l => l
  | TreeNode.str _ => []

theorem marksOK_buildList (cwd : List String) (m : Option Matcher) :
    ∀ path l, marksOK (buildList cwd m path l) = true := by
  intro path l
  induction path, l using buildList.induct cwd m with
  | case1 path => rw [buildList.eq_def, marksOK]
  | case2 path n e rest h ih =>
    have h' : n ∈ skip_dirs ∧ e.isDir = true := by simpa using h
    rw [buildList.eq_def]
    simp [h', ih]
  | case3 path n e rest h h2 ih =>
    rw [buildList.eq_def]
    simp [h, h2, ih]
  | case4 path n rest h2 sub h ih₁ ih₂ =>
    have h' : n ∉ skip_dirs := by simpa [FSEntry.isDir] using h
    rw [buildList.eq_def]
    simp [FSEntry.isDir, h', h2, marksOK, ih₁, ih₂]
  | case5 path n rest h2 fd h ih =>
    rw [buildList.eq_def]
    simp only [FSEntry.isDir, Bool.and_false, Bool.false_eq_true, if_false]
    simp [h2, marksOK, ih]

theorem contentHeadings_eq_leafPaths :
    ∀ parent (l : List (String × TreeNode)), marksOK l = true →
      contentHeadings parent l = (strLeafPaths parent l).map mkHeading := by
  intro parent l
  induction parent, l using contentHeadings.induct with
  | case1 parent => intro _; rw [contentHeadings, strLeafPaths]; rfl
  | case2 parent n sub rest ih₁ ih₂ =>
    intro h
    rw [marksOK] at h
    simp only [Bool.and_eq_true] at h
    rw [contentHeadings, strLeafPaths, List.map_append, ih₁ h.1, ih₂ h.2]
  | case3 parent n v rest ih =>
    intro h
    rw [marksOK] at h
    simp only [Bool.and_eq_true, Bool.or_eq_true, beq_iff_eq] at h
    rw [contentHeadings, strLeafPaths]
    have hv : v = "FILE" ∨ v = "BINARY" := h.1
    rw [if_pos hv, List.map_cons, ih h.2]
    rfl

/-- C8: for every built tree, the heading lines the gatherer emits are
exactly one per non-directory leaf node — every leaf carries `"FILE"` or
`"BINARY"`, the emitted headings are the leaf paths in order (so the sets
agree and each leaf gets exactly one heading), and the gatherer's output is
the join of the per-node blocks, each of which begins with its heading. -/
theorem claim_c8_headings_match_leaves (cwd : List String) (m : Option Matcher)
    (root : List String) (fs : List (String × FSEntry)) (parent : List String)
    (rt : List String → Except String String) :
    marksOK (build_file_tree cwd m root fs).entries = true ∧
      contentHeadings parent (build_file_tree cwd m root fs).entries =
        (strLeafPaths parent (build_file_tree cwd m root fs).entries).map mkHeading ∧
      gather_file_contents rt (build_file_tree cwd m root fs) parent =
        "\n".intercalate (contentSegs rt parent (build_file_tree cwd m root fs).entries) := by
  have hm : marksOK (build_file_tree cwd m root fs).entries = true := by
    rw [build_file_tree, TreeNode.entries]
    exact marksOK_buildList cwd m root (sortEntries fs)
  refine ⟨hm, contentHeadings_eq_leafPaths parent _ hm, ?_⟩
  rw [build_file_tree, TreeNode.entries, gather_file_contents]
  exact gather_eq_contentSegs rt parent _

/-- Split a character sequence at newline characters (the line structure of
the rendered output; `linesOf [] = [[]]`, one empty line). -/
def linesOf : List Char → List (List Char)
  | [] => [[]]
  | c :: rest =>
    if c = '\n' then [] :: linesOf rest
    else
      match linesOf rest with
      | l :: ls => (c :: l) :: ls
      | [] => [[c]]

/-- Join character lines with single newlines (inverse of `linesOf`). -/
def catLines : List (List Char) → List Char
  | [] => []
  | [l] => l
  | l :: ls => l ++ '\n' :: catLines ls

theorem data_intercalate (l : List String) :
    ("\n".intercalate l).data = catLines (l.map String.data) := by
  induction l with
  | nil => rfl
  | cons a t ih =>
    rcases t with _ | ⟨b, t'⟩
    · rfl
    · rw [intercalate_cons "\n" a (b :: t') (by simp), String.data_append, String.data_append,
        ih]
      rw [List.append_assoc]
      rfl

theorem linesOf_no_newline (xs : List Char) (h : '\n' ∉ xs) : linesOf xs = [xs] := by
  induction xs with
  | nil => rfl
  | cons c rest ih =>
    have hc : ¬ c = '\n' := fun hc => h (hc ▸ List.mem_cons_self c rest)
    have hr : '\n' ∉ rest := fun hr => h (List.mem_cons_of_mem c hr)
    rw [linesOf, if_neg hc, ih hr]

theorem linesOf_append_newline (xs ys : List Char) (h : '\n' ∉ xs) :
    linesOf (xs ++ '\n' :: ys) = xs :: linesOf ys := by
  induction xs with
  | nil => simp [linesOf]
  | cons c rest ih =>
    have hc : ¬ c = '\n' := fun hc => h (hc ▸ List.mem_cons_self c rest)
    have hr : '\n' ∉ rest := fun hr => h (List.mem_cons_of_mem c hr)
    rw [List.cons_append, linesOf, if_neg hc, ih hr]

theorem linesOf_catLines (ps : List (List Char)) (h : ∀ l ∈ ps, '\n' ∉ l) :
    (linesOf (catLines ps)).filter (· ≠ []) = ps.filter (· ≠ []) := by
  induction ps with
  | nil => rfl
  | cons l ps' ih =>
    rcases ps' with _ | ⟨l₂, ps''⟩
    · rw [show catLines [l] = l from rfl, linesOf_no_newline l (h l (List.mem_cons_self l []))]
    · rw [show catLines (l :: l₂ :: ps'') = l ++ '\n' :: catLines (l₂ :: ps'') from rfl,
        linesOf_append_newline l _ (h l (List.mem_cons_self l _)), List.filter_cons,
        List.filter_cons, ih (fun x hx => h x (List.mem_cons_of_mem l hx))]

/-- The flattened list of individual rendered lines, in order: one line per
tree node, except that a directory whose rendered subtree is empty
contributes one extra empty segment (the blank line the source emits). -/
def renderSegs (pre : String) : List (String × TreeNode) → List String
  | [] => []
  | (n, TreeNode.dict sub) :: rest =>
    (pre ++ "- **" ++ n ++ "/**") ::
      ((let bs := renderSegs (pre ++ "  ") sub
        if bs = [] then [""] else bs) ++ renderSegs pre rest)
  | (n, TreeNode.str _) :: rest => (pre ++ "- " ++ n) :: renderSegs pre rest
termination_by l => sizeOf l

theorem renderItems_eq_nil_iff (pre : String) (l : List (String × TreeNode)) :
    renderItems pre l = [] ↔ l = [] := by
  rcases l with _ | ⟨⟨n, v⟩, rest⟩
  · rw [renderItems]; simp
  · rcases v with sub | v <;> (rw [renderItems]; simp)

theorem renderSegs_eq_nil_iff (pre : String) (l : List (String × TreeNode)) :
    renderSegs pre l = [] ↔ l = [] := by
  rcases l with _ | ⟨⟨n, v⟩, rest⟩
  · rw [renderSegs]; simp
  · rcases v with sub | v <;> (rw [renderSegs]; simp)

theorem render_eq_renderSegs : ∀ (pre : String) (l : List (String × TreeNode)),
    "\n".intercalate (renderItems pre l) = "\n".intercalate (renderSegs pre l) := by
  intro pre l
  induction pre, l using renderSegs.induct with
  | case1 pre => rw [renderItems, renderSegs]
  | case2 pre n sub rest ih₁ ih₂ =>
    rw [renderItems, renderSegs]
    have hiff : renderItems pre rest = [] ↔ renderSegs pre rest = [] :=
      (renderItems_eq_nil_iff pre rest).trans (renderSegs_eq_nil_iff pre rest).symm
    have hg : render_tree_markdown (TreeNode.dict sub) (pre ++ "  ") =
        "\n".intercalate (renderSegs (pre ++ "  ") sub) := by
      rw [render_tree_markdown]; exact ih₁
    rcases hbs : renderSegs (pre ++ "  ") sub with _ | ⟨b, bs'⟩
    · rw [hg, hbs, intercalate_nil]
      show "\n".intercalate ([pre ++ "- **" ++ n ++ "/**", ""] ++ renderItems pre rest) =
        "\n".intercalate ([pre ++ "- **" ++ n ++ "/**", ""] ++ renderSegs pre rest)
      exact intercalate_congr_tail "\n" _ _ _ hiff ih₂
    · rw [hg, hbs]
      show "\n".intercalate ((pre ++ "- **" ++ n ++ "/**") ::
          "\n".intercalate (b :: bs') :: renderItems pre rest) =
        "\n".intercalate (((pre ++ "- **" ++ n ++ "/**") :: b :: bs') ++ renderSegs pre rest)
      calc "\n".intercalate ((pre ++ "- **" ++ n ++ "/**") ::
              "\n".intercalate (b :: bs') :: renderItems pre rest)
          = "\n".intercalate (((pre ++ "- **" ++ n ++ "/**") :: b :: bs') ++
              renderItems pre rest) :=
            intercalate_splice "\n" (b :: bs') [pre ++ "- **" ++ n ++ "/**"]
              (renderItems pre rest) (by simp)
        _ = "\n".intercalate (((pre ++ "- **" ++ n ++ "/**") :: b :: bs') ++
              renderSegs pre rest) :=
            intercalate_congr_tail "\n" _ _ _ hiff ih₂
  | case3 pre n v rest ih =>
    rw [renderItems, renderSegs]
    show "\n".intercalate ([pre ++ "- " ++ n] ++ renderItems pre rest) =
      "\n".intercalate ([pre ++ "- " ++ n] ++ renderSegs pre rest)
    exact intercalate_congr_tail "\n" _ _ _
      ((renderItems_eq_nil_iff pre rest).trans (renderSegs_eq_nil_iff pre rest).symm) ih

/-- One rendered line per surviving (neither skipped nor ignored) filesystem
entry, in traversal order: a directory contributes its marker line followed
by its children's lines (children taken in sorted order), a file contributes
one plain line.  Every non-ignored entry contributes exactly one line by
construction. -/
def surviveLines (cwd : List String) (m : Option Matcher) (pre : String)
    (path : List String) : List (String × FSEntry) → List String
  | [] => []
  | (n, e) :: rest =>
    if skip_dirs.contains n && e.isDir then surviveLines cwd m pre path rest
    else if is_ignored (path ++ [n]) cwd m then surviveLines cwd m pre path rest
    else
      match e with
      | FSEntry.dir sub =>
        (pre ++ "- **" ++ n ++ "/**") ::
          (surviveLines cwd m (pre ++ "  ") (path ++ [n]) (sortEntries sub) ++
            surviveLines cwd m pre path rest)
      | FSEntry.file _ => (pre ++ "- " ++ n) :: surviveLines cwd m pre path rest
termination_by l => sizeOf l
decreasing_by
  all_goals
    simp only [List.cons.sizeOf_spec, sizeOf_sortEntries, Prod.mk.sizeOf_spec,
      FSEntry.dir.sizeOf_spec]
  all_goals omega

theorem data_eq_nil_iff (a : String) : a.data = [] ↔ a = "" := by
  constructor
  · intro h
    exact congrArg String.mk h
  · intro h
    rw [h]

theorem append_ne_empty_left (a b : String) (ha : a ≠ "") : a ++ b ≠ "" := by
  intro h
  have hd := congrArg String.data h
  rw [String.data_append] at hd
  exact ha ((data_eq_nil_iff a).mp (List.append_eq_nil.mp hd).1)

theorem append_ne_empty_right (a b : String) (hb : b ≠ "") : a ++ b ≠ "" := by
  intro h
  have hd := congrArg String.data h
  rw [String.data_append] at hd
  exact hb ((data_eq_nil_iff b).mp (List.append_eq_nil.mp hd).2)

theorem dirLine_ne_empty (pre n : String) : pre ++ "- **" ++ n ++ "/**" ≠ "" :=
  append_ne_empty_right _ _ (by decide)

theorem fileLine_ne_empty (pre n : String) : pre ++ "- " ++ n ≠ "" :=
  append_ne_empty_left _ _ (append_ne_empty_right _ _ (by decide))

theorem renderSegs_buildList_filter (cwd : List String) (m : Option Matcher) :
    ∀ path l, ∀ pre : String,
      (renderSegs pre (buildList cwd m path l)).filter (· ≠ "") =
        surviveLines cwd m pre path l := by
  intro path l
  induction path, l using buildList.induct cwd m with
  | case1 path =>
    intro pre
    rw [buildList.eq_def, surviveLines, renderSegs]
    rfl
  | case2 path n e rest h ih =>
    intro pre
    have h' : n ∈ skip_dirs ∧ e.isDir = true := by simpa using h
    rw [buildList.eq_def, surviveLines.eq_def]
    simp only [h, if_true, if_pos h']
    exact ih pre
  | case3 path n e rest h h2 ih =>
    intro pre
    rw [buildList.eq_def, surviveLines.eq_def]
    simp only [h, h2, if_true, if_neg h, if_pos h2]
    exact ih pre
  | case4 path n rest h2 sub h ih₁ ih₂ =>
    intro pre
    have h' : ¬ (n ∈ skip_dirs ∧ (FSEntry.dir sub).isDir = true) := by
      simpa [FSEntry.isDir] using h
    rw [buildList.eq_def, surviveLines]
    simp only [if_neg h', if_neg h2, if_neg h]
    rw [renderSegs]
    rw [List.filter_cons_of_pos (by simpa using dirLine_ne_empty pre n), List.filter_append]
    have hsq : ∀ bs : List String, (if bs = [] then [""] else bs).filter (· ≠ "") =
        bs.filter (· ≠ "") := by
      intro bs
      by_cases hbs : bs = [] <;> simp [hbs]
    rw [hsq, ih₁ (pre ++ "  "), ih₂ pre]
  | case5 path n rest h2 fd h ih =>
    intro pre
    have h' : ¬ (n ∈ skip_dirs ∧ (FSEntry.file fd).isDir = true) := by
      simp [FSEntry.isDir]
    rw [buildList.eq_def, surviveLines]
    simp only [if_neg h', if_neg h2, if_neg h]
    rw [renderSegs]
    rw [List.filter_cons_of_pos (by simpa using fileLine_ne_empty pre n), ih pre]

/-- A real directory-entry name: contains no newline character.  (POSIX also
forbids `/` and NUL in names; only newline-freeness matters for the line
structure of the output.) -/
def validName (n : String) : Bool := !(n.data.contains '\n')

mutual

/-- Entry names of every directory below this entry are pairwise distinct and
newline-free. -/
def subValid : FSEntry → Bool
  | FSEntry.file _ => true
  | FSEntry.dir sub => decide ((sub.map Prod.fst).Nodup) && validList sub

/-- All names in the listing are newline-free and all subdirectories valid. -/
def validList : List (String × FSEntry) → Bool
  | [] => true
  | (n, e) :: rest => (validName n && subValid e) && validList rest

end

/-- A well-formed directory listing: distinct, newline-free names at every
level. -/
def validFS (l : List (String × FSEntry)) : Bool :=
  decide ((l.map Prod.fst).Nodup) && validList l

theorem validList_mem {l : List (String × FSEntry)} (hv : validList l = true)
    {x : String × FSEntry} (hx : x ∈ l) : validName x.1 = true ∧ subValid x.2 = true := by
  induction l with
  | nil => cases hx
  | cons y rest ih =>
    rcases y with ⟨n, e⟩
    rw [validList] at hv
    simp only [Bool.and_eq_true] at hv
    rcases List.mem_cons.mp hx with rfl | hx
    · exact ⟨hv.1.1, hv.1.2⟩
    · exact ih hv.2 hx

theorem validList_of_forall {l : List (String × FSEntry)}
    (h : ∀ x ∈ l, validName x.1 = true ∧ subValid x.2 = true) : validList l = true := by
  induction l with
  | nil => rfl
  | cons y rest ih =>
    rcases y with ⟨n, e⟩
    rw [validList]
    have hy := h (n, e) (List.mem_cons_self _ _)
    simp only [Bool.and_eq_true]
    exact ⟨⟨hy.1, hy.2⟩, ih (fun x hx => h x (List.mem_cons_of_mem _ hx))⟩

theorem insertEntry_perm (x : String × FSEntry) (l : List (String × FSEntry)) :
    List.Perm (insertEntry x l) (x :: l) := by
  induction l with
  | nil => exact List.Perm.refl _
  | cons y ys ih =>
    rw [insertEntry]
    by_cases h : strLe x.1 y.1 = true
    · rw [if_pos h]
    · rw [if_neg h]
      exact (List.Perm.cons y ih).trans (List.Perm.swap x y ys)

theorem sortEntries_perm (l : List (String × FSEntry)) :
    List.Perm (sortEntries l) l := by
  induction l with
  | nil => exact List.Perm.refl _
  | cons x xs ih =>
    rw [sortEntries]
    exact (insertEntry_perm x (sortEntries xs)).trans (List.Perm.cons x ih)

theorem validList_sortEntries {l : List (String × FSEntry)} (hv : validList l = true) :
    validList (sortEntries l) = true :=
  validList_of_forall (fun x hx => validList_mem hv ((sortEntries_perm l).subset hx))

theorem no_newline_append (a b : String) (ha : '\n' ∉ a.data) (hb : '\n' ∉ b.data) :
    '\n' ∉ (a ++ b).data := by
  rw [String.data_append]
  intro hc
  rcases List.mem_append.mp hc with h | h
  · exact ha h
  · exact hb h

theorem renderSegs_no_newline (cwd : List String) (m : Option Matcher) :
    ∀ path l, validList l = true → ∀ pre : String, '\n' ∉ pre.data →
      ∀ s ∈ renderSegs pre (buildList cwd m path l), '\n' ∉ s.data := by
  intro path l
  induction path, l using buildList.induct cwd m with
  | case1 path =>
    intro _ pre _ s hs
    rw [buildList.eq_def, renderSegs] at hs
    cases hs
  | case2 path n e rest h ih =>
    intro hv pre hpre s hs
    rw [validList] at hv
    simp only [Bool.and_eq_true] at hv
    rw [buildList.eq_def] at hs
    simp only [h, if_true] at hs
    exact ih hv.2 pre hpre s hs
  | case3 path n e rest h h2 ih =>
    intro hv pre hpre s hs
    rw [validList] at hv
    simp only [Bool.and_eq_true] at hv
    rw [buildList.eq_def] at hs
    simp only [h, h2, if_true, if_neg h, if_pos h2] at hs
    exact ih hv.2 pre hpre s hs
  | case4 path n rest h2 sub h ih₁ ih₂ =>
    intro hv pre hpre s hs
    rw [validList] at hv
    simp only [Bool.and_eq_true] at hv
    have hnn : '\n' ∉ n.data := by
      have h1 := hv.1.1
      rw [validName] at h1
      simpa using h1
    have hsubv : validList (sortEntries sub) = true := by
      have h1 := hv.1.2
      rw [subValid] at h1
      simp only [Bool.and_eq_true] at h1
      exact validList_sortEntries h1.2
    rw [buildList.eq_def] at hs
    simp only [if_neg h, if_neg h2] at hs
    rw [renderSegs] at hs
    rcases List.mem_cons.mp hs with rfl | hs2
    · exact no_newline_append _ _
        (no_newline_append _ _ (no_newline_append _ _ hpre (by decide)) hnn) (by decide)
    · rcases List.mem_append.mp hs2 with hsb | hsr
      · by_cases hbs : renderSegs (pre ++ "  ") (buildList cwd m (path ++ [n]) (sortEntries sub)) = []
        · rw [hbs] at hsb
          simp only [if_pos rfl] at hsb
          rcases List.mem_singleton.mp hsb with rfl
          decide
        · rw [if_neg hbs] at hsb
          exact ih₁ hsubv (pre ++ "  ") (no_newline_append _ _ hpre (by decide)) s hsb
      · exact ih₂ hv.2 pre hpre s hsr
  | case5 path n rest h2 fd h ih =>
    intro hv pre hpre s hs
    rw [validList] at hv
    simp only [Bool.and_eq_true] at hv
    have hnn : '\n' ∉ n.data := by
      have h1 := hv.1.1
      rw [validName] at h1
      simpa using h1
    rw [buildList.eq_def] at hs
    simp only [if_neg h, if_neg h2] at hs
    rw [renderSegs] at hs
    rcases List.mem_cons.mp hs with rfl | hs2
    · exact no_newline_append _ _ (no_newline_append _ _ hpre (by decide)) hnn
    · exact ih hv.2 pre hpre s hs2

theorem charListLe_total : ∀ as bs : List Char, charListLe as bs = true ∨ charListLe bs as = true := by
  intro as
  induction as with
  | nil => intro bs; left; rfl
  | cons a as' ih =>
    intro bs
    rcases bs with _ | ⟨b, bs'⟩
    · right; rfl
    · rw [charListLe, charListLe]
      by_cases hab : a.toNat < b.toNat
      · left; rw [if_pos hab]
      · by_cases hba : b.toNat < a.toNat
        · right; rw [if_pos hba]
        · rw [if_neg hab, if_neg hba, if_neg hba, if_neg hab]
          exact ih bs'

theorem charListLe_trans : ∀ as bs cs : List Char,
    charListLe as bs = true → charListLe bs cs = true → charListLe as cs = true := by
  intro as
  induction as with
  | nil => intro bs cs _ _; rfl
  | cons a as' ih =>
    intro bs cs h₁ h₂
    rcases bs with _ | ⟨b, bs'⟩
    · rw [charListLe] at h₁; cases h₁
    · rcases cs with _ | ⟨c, cs'⟩
      · rw [charListLe] at h₂; cases h₂
      · rw [charListLe] at h₁ h₂ ⊢
        by_cases hab : a.toNat < b.toNat
        · by_cases hbc : b.toNat < c.toNat
          · rw [if_pos (lt_trans hab hbc)]
          · by_cases hcb : c.toNat < b.toNat
            · rw [if_neg hbc, if_pos hcb] at h₂; cases h₂
            · have hbc' : b.toNat = c.toNat := le_antisymm (not_lt.mp hcb) (not_lt.mp hbc)
              rw [if_pos (hbc' ▸ hab)]
        · by_cases hba : b.toNat < a.toNat
          · rw [if_neg hab, if_pos hba] at h₁; cases h₁
          · have hab' : a.toNat = b.toNat := le_antisymm (not_lt.mp hba) (not_lt.mp hab)
            rw [if_neg hab, if_neg hba] at h₁
            by_cases hbc : b.toNat < c.toNat
            · rw [if_pos (hab' ▸ hbc)]
            · by_cases hcb : c.toNat < b.toNat
              · rw [if_neg hbc, if_pos hcb] at h₂; cases h₂
              · rw [if_neg hbc, if_neg hcb] at h₂
                have hac : ¬ a.toNat < c.toNat := by rw [hab']; exact hbc
                have hca : ¬ c.toNat < a.toNat := by rw [hab']; exact hcb
                rw [if_neg hac, if_neg hca]
                exact ih bs' cs' h₁ h₂

theorem strLe_total (a b : String) : strLe a b = true ∨ strLe b a = true :=
  charListLe_total a.data b.data

theorem strLe_trans {a b c : String} (h₁ : strLe a b = true) (h₂ : strLe b c = true) :
    strLe a c = true :=
  charListLe_trans a.data b.data c.data h₁ h₂

theorem mem_insertEntry {z x : String × FSEntry} {l : List (String × FSEntry)} :
    z ∈ insertEntry x l ↔ z = x ∨ z ∈ l := by
  rw [(insertEntry_perm x l).mem_iff]
  exact List.mem_cons

theorem insertEntry_pairwise (x : String × FSEntry) (l : List (String × FSEntry))
    (hl : l.Pairwise (fun a b => strLe a.1 b.1 = true)) :
    (insertEntry x l).Pairwise (fun a b => strLe a.1 b.1 = true) := by
  induction l with
  | nil => simp [insertEntry]
  | cons y ys ih =>
    rw [insertEntry]
    rcases List.pairwise_cons.mp hl with ⟨hy, hys⟩
    by_cases h : strLe x.1 y.1 = true
    · rw [if_pos h]
      refine List.pairwise_cons.mpr ⟨?_, hl⟩
      intro z hz
      rcases List.mem_cons.mp hz with rfl | hz'
      · exact h
      · exact strLe_trans h (hy z hz')
    · rw [if_neg h]
      refine List.pairwise_cons.mpr ⟨?_, ih hys⟩
      intro z hz
      rcases mem_insertEntry.mp hz with rfl | hz'
      · rcases strLe_total z.1 y.1 with hzy | hyz
        · exact absurd hzy h
        · exact hyz
      · exact hy z hz'

theorem sortEntries_pairwise (l : List (String × FSEntry)) :
    (sortEntries l).Pairwise (fun a b => strLe a.1 b.1 = true) := by
  induction l with
  | nil => simp [sortEntries]
  | cons x xs ih =>
    rw [sortEntries]
    exact insertEntry_pairwise x (sortEntries xs) ih

theorem sortEntries_names_pairwise_lt (l : List (String × FSEntry))
    (hnd : (l.map Prod.fst).Nodup) :
    ((sortEntries l).map Prod.fst).Pairwise (fun a b => strLt a b = true) := by
  have hle : ((sortEntries l).map Prod.fst).Pairwise (fun a b => strLe a b = true) :=
    List.pairwise_map.mpr (sortEntries_pairwise l)
  have hnd' : ((sortEntries l).map Prod.fst).Nodup :=
    (((sortEntries_perm l).map Prod.fst).nodup_iff).mpr hnd
  have hcomb := hle.and hnd'
  refine hcomb.imp ?_
  intro a b hab
  rw [strLt, hab.1, Bool.true_and]
  simpa using hab.2

/-- The names are strictly increasing in Python's string order. -/
def namesPairwiseLt (ns : List String) : Bool :=
  decide (ns.Pairwise (fun a b => strLt a b = true))

/-- Every directory node below the given entry list has strictly sorted child
names. -/
def itemsSorted : List (String × TreeNode) → Bool
  | [] => true
  | (_, TreeNode.dict sub) :: rest =>
    (namesPairwiseLt (sub.map Prod.fst) && itemsSorted sub) && itemsSorted rest
  | (_, TreeNode.str _) :: rest => itemsSorted rest
termination_by l => sizeOf l

/-- At every nesting level of the tree, the child names are strictly sorted
in Python's string order. -/
def treeSorted (t : TreeNode) : Bool :=
  namesPairwiseLt (t.entries.map Prod.fst) && itemsSorted t.entries

theorem buildList_names_sublist (cwd : List String) (m : Option Matcher) :
    ∀ path l, List.Sublist ((buildList cwd m path l).map Prod.fst) (l.map Prod.fst) := by
  intro path l
  induction path, l using buildList.induct cwd m with
  | case1 path => rw [buildList.eq_def]; exact List.Sublist.refl _
  | case2 path n e rest h ih =>
    rw [buildList.eq_def]
    simp only [h, if_true]
    exact ih.cons n
  | case3 path n e rest h h2 ih =>
    rw [buildList.eq_def]
    simp only [if_neg h, if_pos h2]
    exact ih.cons n
  | case4 path n rest h2 sub h ih₁ ih₂ =>
    rw [buildList.eq_def]
    simp only [if_neg h, if_neg h2, List.map_cons]
    exact ih₂.cons₂ n
  | case5 path n rest h2 fd h ih =>
    rw [buildList.eq_def]
    simp only [if_neg h, if_neg h2, List.map_cons]
    exact ih.cons₂ n

theorem itemsSorted_buildList (cwd : List String) (m : Option Matcher) :
    ∀ path l, validList l = true → itemsSorted (buildList cwd m path l) = true := by
  intro path l
  induction path, l using buildList.induct cwd m with
  | case1 path => intro _; rw [buildList.eq_def, itemsSorted]
  | case2 path n e rest h ih =>
    intro hv
    rw [validList] at hv
    simp only [Bool.and_eq_true] at hv
    rw [buildList.eq_def]
    simp only [h, if_true]
    exact ih hv.2
  | case3 path n e rest h h2 ih =>
    intro hv
    rw [validList] at hv
    simp only [Bool.and_eq_true] at hv
    rw [buildList.eq_def]
    simp only [if_neg h, if_pos h2]
    exact ih hv.2
  | case4 path n rest h2 sub h ih₁ ih₂ =>
    intro hv
    rw [validList] at hv
    simp only [Bool.and_eq_true] at hv
    have hsub := hv.1.2
    rw [subValid] at hsub
    simp only [Bool.and_eq_true, decide_eq_true_eq] at hsub
    rw [buildList.eq_def]
    simp only [if_neg h, if_neg h2]
    rw [itemsSorted]
    have hnames : ((buildList cwd m (path ++ [n]) (sortEntries sub)).map Prod.fst).Pairwise
        (fun a b => strLt a b = true) :=
      (sortEntries_names_pairwise_lt sub hsub.1).sublist
        (buildList_names_sublist cwd m (path ++ [n]) (sortEntries sub))
    simp only [Bool.and_eq_true]
    exact ⟨⟨by rw [namesPairwiseLt]; exact decide_eq_true hnames,
      ih₁ (validList_sortEntries hsub.2)⟩, ih₂ hv.2⟩
  | case5 path n rest h2 fd h ih =>
    intro hv
    rw [validList] at hv
    simp only [Bool.and_eq_true] at hv
    rw [buildList.eq_def]
    simp only [if_neg h, if_neg h2]
    rw [itemsSorted]
    exact ih hv.2

theorem filter_map_data (l : List String) :
    (l.map String.data).filter (· ≠ []) = (l.filter (· ≠ "")).map String.data := by
  induction l with
  | nil => rfl
  | cons a t ih =>
    by_cases ha : a = ""
    · subst ha
      simpa using ih
    · have hd : a.data ≠ [] := fun hc => ha ((data_eq_nil_iff a).mp hc)
      simp only [List.map_cons, List.filter_cons]
      rw [if_pos (by simpa using hd), if_pos (by simpa using ha), List.map_cons, ih]

/-- C1: for every well-formed filesystem, rendering the built tree produces
exactly one (non-empty) list line per surviving entry — the non-empty lines
of the output are precisely `surviveLines`, which emits one line per
non-skipped, non-ignored entry in traversal order — and at each nesting level
of the built tree the entry names are strictly sorted in Python's
code-point order. -/
theorem claim_c1_render_tree (cwd : List String) (m : Option Matcher) (root : List String)
    (fs : List (String × FSEntry)) (hv : validFS fs = true) :
    (linesOf (render_tree_markdown (build_file_tree cwd m root fs) "").data).filter (· ≠ []) =
        (surviveLines cwd m "" root (sortEntries fs)).map String.data ∧
      treeSorted (build_file_tree cwd m root fs) = true := by
  rw [validFS] at hv
  simp only [Bool.and_eq_true, decide_eq_true_eq] at hv
  have hvs : validList (sortEntries fs) = true := validList_sortEntries hv.2
  constructor
  · have hrender : render_tree_markdown (build_file_tree cwd m root fs) "" =
        "\n".intercalate (renderSegs "" (buildList cwd m root (sortEntries fs))) := by
      rw [build_file_tree, render_tree_markdown]
      exact render_eq_renderSegs "" _
    have hnl : ∀ l ∈ (renderSegs "" (buildList cwd m root (sortEntries fs))).map String.data,
        '\n' ∉ l := by
      intro l hl
      rcases List.mem_map.mp hl with ⟨s, hs, rfl⟩
      exact renderSegs_no_newline cwd m root (sortEntries fs) hvs "" (by decide) s hs
    rw [hrender, data_intercalate, linesOf_catLines _ hnl, filter_map_data,
      renderSegs_buildList_filter]
  · rw [build_file_tree, treeSorted, TreeNode.entries]
    simp only [Bool.and_eq_true]
    refine ⟨?_, itemsSorted_buildList cwd m root (sortEntries fs) hvs⟩
    rw [namesPairwiseLt]
    exact decide_eq_true ((sortEntries_names_pairwise_lt fs hv.1).sublist
      (buildList_names_sublist cwd m root (sortEntries fs)))

theorem claim_c1_witness :
    validFS [("b.txt", FSEntry.file (FileData.mk [104, 105] none)),
        ("sub", FSEntry.dir [])] = true ∧
      ((linesOf (render_tree_markdown (build_file_tree [] none []
              [("b.txt", FSEntry.file (FileData.mk [104, 105] none)),
               ("sub", FSEntry.dir [])]) "").data).filter (· ≠ []) =
          (surviveLines [] none "" []
            (sortEntries [("b.txt", FSEntry.file (FileData.mk [104, 105] none)),
              ("sub", FSEntry.dir [])])).map String.data ∧
        treeSorted (build_file_tree [] none []
          [("b.txt", FSEntry.file (FileData.mk [104, 105] none)),
           ("sub", FSEntry.dir [])]) = true) :=
  ⟨by simp [validFS, validList, subValid, validName],
    claim_c1_render_tree [] none [] _ (by simp [validFS, validList, subValid, validName])⟩

/-- C7: a directory with no surviving children after filtering appears in the
built tree as a directory node with empty children; rendering that node
yields exactly its one directory line (`- **name/**`) and no child lines; the
gatherer emits nothing (in particular no heading) for it. -/
theorem claim_c7_empty_directory (cwd : List String) (m : Option Matcher)
    (path parent : List String) (n : String) (sub : List (String × FSEntry))
    (rt : List String → Except String String)
    (hskip : skip_dirs.contains n = false)
    (hign : is_ignored (path ++ [n]) cwd m = false)
    (hname : validName n = true)
    (hsub : buildList cwd m (path ++ [n]) (sortEntries sub) = []) :
    build_file_tree cwd m path [(n, FSEntry.dir sub)] =
        TreeNode.dict [(n, TreeNode.dict [])] ∧
      (linesOf (render_tree_markdown (TreeNode.dict [(n, TreeNode.dict [])]) "").data).filter
          (· ≠ []) = [("- **" ++ n ++ "/**").data] ∧
      gather_file_contents rt (TreeNode.dict [(n, TreeNode.dict [])]) parent = "" ∧
      contentHeadings parent [(n, TreeNode.dict [])] = [] := by
  have hnn : '\n' ∉ n.data := by
    rw [validName] at hname
    simpa using hname
  refine ⟨?_, ?_, ?_, ?_⟩
  · rw [build_file_tree,
      show sortEntries [(n, FSEntry.dir sub)] = [(n, FSEntry.dir sub)] from rfl,
      buildList.eq_def]
    simp only [hskip, Bool.false_and, Bool.false_eq_true, if_false, hign, hsub]
    rw [buildList.eq_def]
  · rw [render_tree_markdown, renderItems, render_tree_markdown, renderItems,
      intercalate_nil, renderItems]
    rw [intercalate_cons "\n" _ [""] (by simp), intercalate_single]
    rw [String.data_append, String.data_append]
    rw [show ("" : String).data = [] from rfl, show ("\n" : String).data = ['\n'] from rfl]
    rw [show ("" ++ "- **" ++ n ++ "/**").data ++ ['\n'] ++ [] =
      ("" ++ "- **" ++ n ++ "/**").data ++ '\n' :: [] by simp]
    rw [linesOf_append_newline _ _ (by
      exact no_newline_append _ _
        (no_newline_append _ _ (no_newline_append _ _ (by decide) (by decide)) hnn)
        (by decide))]
    rw [linesOf]
    rw [List.filter_cons_of_pos, List.filter_cons_of_neg, List.filter_nil]
    · have : ("" ++ "- **" ++ n ++ "/**" : String) = "- **" ++ n ++ "/**" := by
        have hd : ("" ++ "- **" ++ n ++ "/**" : String).data =
            ("- **" ++ n ++ "/**" : String).data := by
          simp [String.data_append]
        exact congrArg String.mk hd
      rw [this]
    · simp
    · have := dirLine_ne_empty "" n
      simpa using fun hc => this ((data_eq_nil_iff _).mp hc)
  · rw [gather_file_contents, gatherItems, gather_file_contents, gatherItems,
      intercalate_nil, gatherItems, intercalate_single]
  · rw [contentHeadings, contentHeadings, contentHeadings]
    rfl

theorem claim_c7_witness :
    skip_dirs.contains "empty" = false ∧
      is_ignored (([] : List String) ++ ["empty"]) [] none = false ∧
      validName "empty" = true ∧
      buildList [] none (([] : List String) ++ ["empty"]) (sortEntries []) = [] ∧
      (build_file_tree [] none [] [("empty", FSEntry.dir [])] =
          TreeNode.dict [("empty", TreeNode.dict [])] ∧
        (linesOf (render_tree_markdown (TreeNode.dict [("empty", TreeNode.dict [])]) "").data).filter
            (· ≠ []) = [("- **" ++ "empty" ++ "/**").data] ∧
        gather_file_contents (fun _ => Except.error "x")
          (TreeNode.dict [("empty", TreeNode.dict [])]) [] = "" ∧
        contentHeadings [] [("empty", TreeNode.dict [])] = []) :=
  ⟨by decide, rfl, by decide, by rw [sortEntries, buildList.eq_def],
    claim_c7_empty_directory [] none [] [] "empty" [] (fun _ => Except.error "x")
      (by decide) rfl (by decide) (by rw [sortEntries, buildList.eq_def])⟩

mutual

/-- Recursively sort every directory listing (the enumeration-order-free
normal form of a filesystem subtree). -/
def normalizeFS : FSEntry → FSEntry
  | FSEntry.file d => FSEntry.file d
  | FSEntry.dir entries => FSEntry.dir (sortEntries (normMap entries))

/-- Normalize every entry of a listing (names unchanged). -/
def normMap : List (String × FSEntry) → List (String × FSEntry)
  | [] => []
  | (n, e) :: rest => (n, normalizeFS e) :: normMap rest

end

mutual

/-- Entry names of every directory below this entry are pairwise distinct. -/
def entryNodup : FSEntry → Bool
  | FSEntry.file _ => true
  | FSEntry.dir sub => decide ((sub.map Prod.fst).Nodup) && listNodup sub

/-- All subdirectories have pairwise-distinct child names. -/
def listNodup : List (String × FSEntry) → Bool
  | [] => true
  | (_, e) :: rest => entryNodup e && listNodup rest

end

/-- Distinct entry names at every level of the listing. -/
def nodupFS (l : List (String × FSEntry)) : Bool :=
  decide ((l.map Prod.fst).Nodup) && listNodup l

theorem sortEntries_of_pairwise (l : List (String × FSEntry))
    (hl : l.Pairwise (fun a b => strLe a.1 b.1 = true)) : sortEntries l = l := by
  induction l with
  | nil => rfl
  | cons x xs ih =>
    rcases List.pairwise_cons.mp hl with ⟨hx, hxs⟩
    rw [sortEntries, ih hxs]
    rcases xs with _ | ⟨y, ys⟩
    · rfl
    · rw [insertEntry, if_pos (hx y (List.mem_cons_self _ _))]

theorem sortEntries_idem (l : List (String × FSEntry)) :
    sortEntries (sortEntries l) = sortEntries l :=
  sortEntries_of_pairwise (sortEntries l) (sortEntries_pairwise l)

theorem normMap_insertEntry : ∀ (x : String × FSEntry) (l : List (String × FSEntry)),
    normMap (insertEntry x l) = insertEntry (x.1, normalizeFS x.2) (normMap l) := by
  intro x l
  rcases x with ⟨xn, xe⟩
  induction l with
  | nil => rfl
  | cons y ys ih =>
    rcases y with ⟨yn, ye⟩
    by_cases h : strLe xn yn = true
    · simp only [insertEntry, normMap, h, if_true]
    · simp only [insertEntry, normMap, h, Bool.false_eq_true, if_false]
      rw [ih]

theorem sortEntries_normMap (l : List (String × FSEntry)) :
    sortEntries (normMap l) = normMap (sortEntries l) := by
  induction l with
  | nil => rfl
  | cons x xs ih =>
    rcases x with ⟨xn, xe⟩
    rw [normMap, sortEntries, sortEntries, ih, normMap_insertEntry]

theorem lookupEntry_normMap (l : List (String × FSEntry)) (n : String) :
    lookupEntry (normMap l) n = (lookupEntry l n).map normalizeFS := by
  induction l with
  | nil => rfl
  | cons y ys ih =>
    rcases y with ⟨yn, ye⟩
    rw [normMap, lookupEntry, lookupEntry]
    by_cases h : yn = n
    · rw [if_pos h, if_pos h]
      rfl
    · rw [if_neg h, if_neg h, ih]

theorem lookupEntry_perm {l₁ l₂ : List (String × FSEntry)} (hp : List.Perm l₁ l₂)
    (hnd : (l₁.map Prod.fst).Nodup) (n : String) :
    lookupEntry l₁ n = lookupEntry l₂ n := by
  induction hp with
  | nil => rfl
  | cons x p ih =>
    rcases x with ⟨xn, xe⟩
    rw [lookupEntry, lookupEntry]
    have hnd' := by
      simp only [List.map_cons, List.nodup_cons] at hnd
      exact hnd.2
    by_cases h : xn = n
    · rw [if_pos h, if_pos h]
    · rw [if_neg h, if_neg h]
      exact ih hnd'
  | swap x y l =>
    rcases x with ⟨xn, xe⟩
    rcases y with ⟨yn, ye⟩
    have hne : yn ≠ xn := by
      simp only [List.map_cons, List.nodup_cons, List.mem_cons] at hnd
      exact fun hc => hnd.1 (Or.inl hc)
    show (if yn = n then some ye else if xn = n then some xe else lookupEntry l n) =
      (if xn = n then some xe else if yn = n then some ye else lookupEntry l n)
    by_cases hy : yn = n
    · have hx : ¬ xn = n := fun hc => hne (hy.trans hc.symm)
      rw [if_pos hy, if_neg hx, if_pos hy]
    · by_cases hx : xn = n
      · rw [if_neg hy, if_pos hx, if_pos hx]
      · rw [if_neg hy, if_neg hx, if_neg hx, if_neg hy]
  | trans p₁ p₂ ih₁ ih₂ =>
    rw [ih₁ hnd]
    exact ih₂ (((p₁.map Prod.fst).nodup_iff).mp hnd)

theorem isDir_normalizeFS (e : FSEntry) : (normalizeFS e).isDir = e.isDir := by
  cases e <;> rfl

theorem buildList_cons (cwd : List String) (m : Option Matcher) (path : List String)
    (n : String) (e : FSEntry) (rest : List (String × FSEntry)) :
    buildList cwd m path ((n, e) :: rest) =
      if (skip_dirs.contains n && e.isDir) = true then buildList cwd m path rest
      else if is_ignored (path ++ [n]) cwd m = true then buildList cwd m path rest
      else
        match e with
        | FSEntry.dir sub =>
          (n, TreeNode.dict (buildList cwd m (path ++ [n]) (sortEntries sub))) ::
            buildList cwd m path rest
        | FSEntry.file fd =>
          (n, TreeNode.str (if is_binary_file fd then "BINARY" else "FILE")) ::
            buildList cwd m path rest := by
  rw [buildList.eq_def]

theorem buildList_normMap (cwd : List String) (m : Option Matcher) :
    ∀ path l, buildList cwd m path (normMap l) = buildList cwd m path l := by
  intro path l
  induction path, l using buildList.induct cwd m with
  | case1 path => rfl
  | case2 path n e rest h ih =>
    rcases e with fd | sub
    · simp [FSEntry.isDir] at h
    · have hc : n ∈ skip_dirs := by
        have := by simpa [FSEntry.isDir] using h
        simpa using this
      rw [normMap, normalizeFS, buildList_cons, buildList_cons]
      simp [FSEntry.isDir, hc, ih]
  | case3 path n e rest h h2 ih =>
    rcases e with fd | sub
    · rw [normMap, normalizeFS, buildList_cons, buildList_cons]
      simp [FSEntry.isDir, h2, ih]
    · have hc : skip_dirs.contains n = false := by simpa [FSEntry.isDir] using h
      rw [normMap, normalizeFS, buildList_cons, buildList_cons]
      simp [FSEntry.isDir, hc, h2, ih]
  | case4 path n rest h2 sub h ih₁ ih₂ =>
    have hc : skip_dirs.contains n = false := by simpa [FSEntry.isDir] using h
    conv_rhs => rw [buildList_cons]
    rw [normMap, normalizeFS, buildList_cons]
    simp only [FSEntry.isDir, Bool.and_true, hc, Bool.false_eq_true, if_false,
      if_neg h2]
    rw [sortEntries_idem, sortEntries_normMap, ih₁, ih₂]
  | case5 path n rest h2 fd h ih =>
    conv_rhs => rw [buildList_cons]
    rw [normMap, normalizeFS, buildList_cons]
    simp [FSEntry.isDir, h2, ih]

theorem build_file_tree_norm (cwd : List String) (m : Option Matcher) (root : List String)
    (l₁ l₂ : List (String × FSEntry))
    (hp : sortEntries (normMap l₁) = sortEntries (normMap l₂)) :
    build_file_tree cwd m root l₁ = build_file_tree cwd m root l₂ := by
  rw [build_file_tree, build_file_tree]
  have h₁ : buildList cwd m root (sortEntries l₁) =
      buildList cwd m root (sortEntries (normMap l₁)) := by
    rw [sortEntries_normMap, buildList_normMap]
  have h₂ : buildList cwd m root (sortEntries l₂) =
      buildList cwd m root (sortEntries (normMap l₂)) := by
    rw [sortEntries_normMap, buildList_normMap]
  rw [h₁, h₂, hp]

theorem names_normMap (l : List (String × FSEntry)) :
    (normMap l).map Prod.fst = l.map Prod.fst := by
  induction l with
  | nil => rfl
  | cons x xs ih =>
    rcases x with ⟨xn, xe⟩
    rw [normMap, List.map_cons, List.map_cons, ih]

theorem lookupEntry_mem {l : List (String × FSEntry)} {n : String} {e : FSEntry}
    (h : lookupEntry l n = some e) : (n, e) ∈ l := by
  induction l with
  | nil => cases h
  | cons y ys ih =>
    rcases y with ⟨yn, ye⟩
    rw [lookupEntry] at h
    by_cases hy : yn = n
    · rw [if_pos hy] at h
      rcases Option.some.inj h with rfl
      exact hy ▸ List.mem_cons_self _ _
    · rw [if_neg hy] at h
      exact List.mem_cons_of_mem _ (ih h)

theorem listNodup_mem {l : List (String × FSEntry)} (hv : listNodup l = true)
    {x : String × FSEntry} (hx : x ∈ l) : entryNodup x.2 = true := by
  induction l with
  | nil => cases hx
  | cons y rest ih =>
    rcases y with ⟨n, e⟩
    rw [listNodup] at hv
    simp only [Bool.and_eq_true] at hv
    rcases List.mem_cons.mp hx with rfl | hx'
    · exact hv.1
    · exact ih hv.2 hx'

theorem lookupEntry_sortNorm (l : List (String × FSEntry)) (n : String)
    (hnd : nodupFS l = true) :
    lookupEntry (sortEntries (normMap l)) n = (lookupEntry l n).map normalizeFS := by
  rw [nodupFS] at hnd
  simp only [Bool.and_eq_true, decide_eq_true_eq] at hnd
  have hnd' : ((sortEntries (normMap l)).map Prod.fst).Nodup := by
    refine (((sortEntries_perm (normMap l)).map Prod.fst).nodup_iff).mpr ?_
    rw [names_normMap]
    exact hnd.1
  rw [lookupEntry_perm (sortEntries_perm (normMap l)) hnd' n, lookupEntry_normMap]

theorem lookupPath_norm :
    ∀ (rel : List String) (l : List (String × FSEntry)), nodupFS l = true →
      (lookupPath l rel).map normalizeFS = lookupPath (sortEntries (normMap l)) rel := by
  intro rel
  induction rel with
  | nil => intro l _; rfl
  | cons n rest ih =>
    intro l hnd
    rcases rest with _ | ⟨r2, rest'⟩
    · show (lookupEntry l n).map normalizeFS = lookupEntry (sortEntries (normMap l)) n
      rw [lookupEntry_sortNorm l n hnd]
    · show (match lookupEntry l n with
          | some (FSEntry.dir sub) => lookupPath sub (r2 :: rest')
          | _ => none).map normalizeFS =
        (match lookupEntry (sortEntries (normMap l)) n with
          | some (FSEntry.dir sub) => lookupPath sub (r2 :: rest')
          | _ => none)
      rcases he : lookupEntry l n with _ | e
      · rw [lookupEntry_sortNorm l n hnd, he]
        rfl
      · rw [lookupEntry_sortNorm l n hnd, he]
        rcases e with fd | sub
        · rfl
        · show (lookupPath sub (r2 :: rest')).map normalizeFS =
            lookupPath (sortEntries (normMap sub)) (r2 :: rest')
          have hsub : nodupFS sub = true := by
            rw [nodupFS] at hnd
            simp only [Bool.and_eq_true, decide_eq_true_eq] at hnd
            have := listNodup_mem hnd.2 (lookupEntry_mem he)
            rw [entryNodup] at this
            simp only [Bool.and_eq_true, decide_eq_true_eq] at this
            rw [nodupFS]
            simp only [Bool.and_eq_true, decide_eq_true_eq]
            exact this
          exact ih sub hsub

theorem osOpenText_norm (st₁ st₂ : SystemState) (hcwd : st₁.cwd = st₂.cwd)
    (h₁ : nodupFS st₁.rootEntries = true) (h₂ : nodupFS st₂.rootEntries = true)
    (hp : sortEntries (normMap st₁.rootEntries) = sortEntries (normMap st₂.rootEntries)) :
    osOpenText st₁ = osOpenText st₂ := by
  funext path
  rw [osOpenText, osOpenText, hcwd]
  rcases hsp : stripPre st₂.cwd path with _ | rel
  · rfl
  · have hkey : (lookupPath st₁.rootEntries rel).map normalizeFS =
        (lookupPath st₂.rootEntries rel).map normalizeFS := by
      rw [lookupPath_norm rel st₁.rootEntries h₁, lookupPath_norm rel st₂.rootEntries h₂, hp]
    show (match lookupPath st₁.rootEntries rel with
        | some (FSEntry.file fd) => readTextData fd
        | some (FSEntry.dir _) => Except.error "Is a directory"
        | none => Except.error "No such file or directory") =
      (match lookupPath st₂.rootEntries rel with
        | some (FSEntry.file fd) => readTextData fd
        | some (FSEntry.dir _) => Except.error "Is a directory"
        | none => Except.error "No such file or directory")
    rcases o₁ : lookupPath st₁.rootEntries rel with _ | e₁ <;>
      rcases o₂ : lookupPath st₂.rootEntries rel with _ | e₂
    · rfl
    · rw [o₁, o₂] at hkey
      simp at hkey
    · rw [o₁, o₂] at hkey
      simp at hkey
    · rw [o₁, o₂] at hkey
      rcases e₁ with fd₁ | sub₁ <;> rcases e₂ with fd₂ | sub₂
      · have hfd : fd₁ = fd₂ := by
          simpa [normalizeFS] using hkey
        rw [hfd]
      · simp [normalizeFS] at hkey
      · simp [normalizeFS] at hkey
      · rfl

/-- C9: the assembled `<project>`-wrapped document is a deterministic
function of the logical filesystem state: two runs whose directory listings
agree up to the (arbitrary) per-directory enumeration order — with the same
working directory and the same ignore-file state — deliver byte-identical
documents.  In particular, running the pipeline twice on an unchanged
directory yields identical output even if the OS enumerates entries in a
different order on the second run. -/
theorem claim_c9_deterministic_document (compile : List String → Matcher)
    (st₁ st₂ : SystemState) (hcwd : st₁.cwd = st₂.cwd) (hig : st₁.ignore = st₂.ignore)
    (h₁ : nodupFS st₁.rootEntries = true) (h₂ : nodupFS st₂.rootEntries = true)
    (hp : sortEntries (normMap st₁.rootEntries) = sortEntries (normMap st₂.rootEntries)) :
    mainDocument compile st₁ = mainDocument compile st₂ := by
  rw [mainDocument, mainDocument, hig]
  rcases hld : load_gitignore_patterns compile st₂.ignore with e | m
  · rfl
  · have hb : build_file_tree st₁.cwd m st₁.cwd st₁.rootEntries =
        build_file_tree st₂.cwd m st₂.cwd st₂.rootEntries := by
      rw [hcwd]
      exact build_file_tree_norm st₂.cwd m st₂.cwd _ _ hp
    show Except.ok ("<project>\n" ++
        (("# Project Structure\n\n" ++
            render_tree_markdown (build_file_tree st₁.cwd m st₁.cwd st₁.rootEntries) "") ++
          ("\n\n# File Contents\n\n" ++
            gather_file_contents (osOpenText st₁)
              (build_file_tree st₁.cwd m st₁.cwd st₁.rootEntries) st₁.cwd)) ++
        "\n</project>\n") =
      Except.ok ("<project>\n" ++
        (("# Project Structure\n\n" ++
            render_tree_markdown (build_file_tree st₂.cwd m st₂.cwd st₂.rootEntries) "") ++
          ("\n\n# File Contents\n\n" ++
            gather_file_contents (osOpenText st₂)
              (build_file_tree st₂.cwd m st₂.cwd st₂.rootEntries) st₂.cwd)) ++
        "\n</project>\n")
    rw [hb, osOpenText_norm st₁ st₂ hcwd h₁ h₂ hp, hcwd]

theorem claim_c9_witness :
    (SystemState.mk ["", "r"]
          [("b.txt", FSEntry.file (FileData.mk [104] none)),
           ("a", FSEntry.dir [("y.txt", FSEntry.file (FileData.mk [104, 105] none)),
             ("x.txt", FSEntry.file (FileData.mk [33] none))])] IgnoreFile.absent).cwd =
        (SystemState.mk ["", "r"]
          [("a", FSEntry.dir [("x.txt", FSEntry.file (FileData.mk [33] none)),
             ("y.txt", FSEntry.file (FileData.mk [104, 105] none))]),
           ("b.txt", FSEntry.file (FileData.mk [104] none))] IgnoreFile.absent).cwd ∧
      nodupFS [("b.txt", FSEntry.file (FileData.mk [104] none)),
        ("a", FSEntry.dir [("y.txt", FSEntry.file (FileData.mk [104, 105] none)),
          ("x.txt", FSEntry.file (FileData.mk [33] none))])] = true ∧
      nodupFS [("a", FSEntry.dir [("x.txt", FSEntry.file (FileData.mk [33] none)),
          ("y.txt", FSEntry.file (FileData.mk [104, 105] none))]),
        ("b.txt", FSEntry.file (FileData.mk [104] none))] = true ∧
      sortEntries (normMap [("b.txt", FSEntry.file (FileData.mk [104] none)),
          ("a", FSEntry.dir [("y.txt", FSEntry.file (FileData.mk [104, 105] none)),
            ("x.txt", FSEntry.file (FileData.mk [33] none))])]) =
        sortEntries (normMap [("a", FSEntry.dir [("x.txt", FSEntry.file (FileData.mk [33] none)),
            ("y.txt", FSEntry.file (FileData.mk [104, 105] none))]),
          ("b.txt", FSEntry.file (FileData.mk [104] none))]) ∧
      mainDocument (fun _ _ => false)
          (SystemState.mk ["", "r"]
            [("b.txt", FSEntry.file (FileData.mk [104] none)),
             ("a", FSEntry.dir [("y.txt", FSEntry.file (FileData.mk [104, 105] none)),
               ("x.txt", FSEntry.file (FileData.mk [33] none))])] IgnoreFile.absent) =
        mainDocument (fun _ _ => false)
          (SystemState.mk ["", "r"]
            [("a", FSEntry.dir [("x.txt", FSEntry.file (FileData.mk [33] none)),
               ("y.txt", FSEntry.file (FileData.mk [104, 105] none))]),
             ("b.txt", FSEntry.file (FileData.mk [104] none))] IgnoreFile.absent) :=
  ⟨rfl, by decide, by decide, rfl,
    claim_c9_deterministic_document (fun _ _ => false) _ _ rfl rfl
      (by decide) (by decide) rfl⟩
